import Mathlib

/-!
Verification development for a small Streamlit repository
(appQ1.py, appQ2.py, appQ4.py): a document-upload chat UI and a
regex-based abbreviation indexer.

Text is modelled as `List Char`.  The Python regular expressions used by
appQ2.py are embedded as deterministic scanners that implement the exact
backtracking semantics of the concrete patterns involved
(`([A-Za-z][A-Za-z0-9\s\-]+?)\s*\(([A-Z]{2,8})\)` for the abbreviation
scan and `(\w+)-\s+(\w+)` for the hyphen repair), specialised to ASCII
character classes (the inputs of interest are ASCII; Python's `\s`, `\w`,
`str.strip`, `str.lower`, `str.isupper` agree with the ASCII versions
below on ASCII text).
-/

/-- ASCII uppercase letter, the `[A-Z]` character class. -/
def isUpperAlpha (c : Char) : Bool := 'A' ≤ c && c ≤ 'Z'

/-- ASCII lowercase letter, the `[a-z]` character class. -/
def isLowerAlpha (c : Char) : Bool := 'a' ≤ c && c ≤ 'z'

/-- ASCII letter, the `[A-Za-z]` character class. -/
def isAlphaCh (c : Char) : Bool := isUpperAlpha c || isLowerAlpha c

/-- ASCII digit, the `[0-9]` character class. -/
def isDigitCh (c : Char) : Bool := '0' ≤ c && c ≤ '9'

/-- ASCII whitespace, Python's regex class `\s` restricted to ASCII. -/
def isSpaceCh (c : Char) : Bool :=
  c == ' ' || c == '\t' || c == '\n' || c == '\r' || c == '\x0b' || c == '\x0c'

/-- Python's regex class `\w` restricted to ASCII: letters, digits, underscore. -/
def isWordCh (c : Char) : Bool := isAlphaCh c || isDigitCh c || c == '_'

/-- The character class `[A-Za-z0-9\s\-]` of the abbreviation pattern's
first capture group (after its leading letter). -/
def isPhraseCh (c : Char) : Bool := isAlphaCh c || isDigitCh c || isSpaceCh c || c == '-'

/-- Python `str.strip()` (ASCII whitespace). -/
def pyStrip (s : List Char) : List Char :=
  ((s.dropWhile isSpaceCh).reverse.dropWhile isSpaceCh).reverse

/-- Python `str.lower()` on ASCII text. -/
def pyLower (s : List Char) : List Char := s.map Char.toLower

/-- Python `str.isupper()` on ASCII text: at least one cased character and
no lowercase cased character. -/
def pyIsupper (s : List Char) : Bool :=
  s.any (fun c => isUpperAlpha c || isLowerAlpha c) && s.all (fun c => !(isLowerAlpha c))

/-- Association-list lookup with decidable equality; the embedding of a
Python `dict` lookup (entries are appended in insertion order and keys are
never overwritten by the code below, matching the source's use). -/
def lookupA (k : List Char) : List (List Char × List Char) → Option (List Char)
  | [] => none
  | (a, b) :: rest => if k = a then some b else lookupA k rest

/-- Join a list of strings with the given separator, Python `sep.join`. -/
def joinSep (sep : List Char) : List (List Char) → List Char
  | [] => []
  | [x] => x
  | x :: xs => x ++ sep ++ joinSep sep xs

/-- Maximal runs of characters satisfying `p`, in order; the embedding of
`re.findall` for a single-character-class-plus pattern (used for
`re.findall(r"[A-Za-z]+", full)`) and of Python `str.split()` (with `p`
the negation of whitespace). -/
def runsOf (p : Char → Bool) (s : List Char) : List (List Char) :=
  let step := fun c (acc : List Char × List (List Char)) =>
    if p c then (c :: acc.1, acc.2)
    else ([], if acc.1 = [] then acc.2 else acc.1 :: acc.2)
  let res := s.foldr step ([], [])
  if res.1 = [] then res.2 else res.1 :: res.2

/-- Word tokens of a phrase: `re.findall(r"[A-Za-z]+", full)` from
appQ2.py line 109. -/
def wordsOf (s : List Char) : List (List Char) := runsOf isAlphaCh s

/-- Python `str.split()`: split on runs of whitespace, dropping empties. -/
def pySplit (s : List Char) : List (List Char) := runsOf (fun c => !(isSpaceCh c)) s

/-- Lexicographic (code-point) strict comparison of strings, Python `<`
on `str`. -/
def strLtB : List Char → List Char → Bool
  | [], [] => false
  | [], _ :: _ => true
  | _ :: _, [] => false
  | a :: as, b :: bs => if a < b then true else if b < a then false else strLtB as bs

/-- Python `<` on pairs of strings (tuple comparison: first component,
then second). -/
def pairLtB (p q : List Char × List Char) : Bool :=
  strLtB p.1 q.1 || (p.1 = q.1 && strLtB p.2 q.2)

/-- Python `str.endswith`. -/
def strEndsWith (s suf : List Char) : Bool :=
  if suf.length ≤ s.length then decide (s.drop (s.length - suf.length) = suf) else false

/-!
### The abbreviation-scan regex

`re.findall(r'([A-Za-z][A-Za-z0-9\s\-]+?)\s*\(([A-Z]{2,8})\)', text)`
(appQ2.py line 86-87).  `matchTail` matches the fixed tail
`\s*\(([A-Z]{2,8})\)`: the greedy `\s*` can never usefully backtrack
(whitespace is never `(`), so it is equivalent to skipping all whitespace;
the greedy `[A-Z]{2,8}` followed by the literal `)` succeeds exactly when
the maximal uppercase run after `(` has length between 2 and 8 and is
immediately followed by `)` (shorter backtracked attempts always face
another uppercase letter, never `)`).  `g1loop` realises the non-greedy
`[A-Za-z0-9\s\-]+?`: it extends the first capture group one character at a
time, trying the tail at each length, shortest first.  `findallFuel` scans
left to right, restarting after each match end, exactly as `re.findall`
does; the fuel argument only forces termination and is always at least the
length of the remaining text.
-/

/-- Match `\s*\(([A-Z]{2,8})\)` at the head of `s`; on success return the
captured abbreviation and the remainder after the closing parenthesis. -/
def matchTail (s : List Char) : Option (List Char × List Char) :=
  match s.dropWhile isSpaceCh with
  | '(' :: s2 =>
    if 2 ≤ (s2.takeWhile isUpperAlpha).length ∧ (s2.takeWhile isUpperAlpha).length ≤ 8 then
      match s2.dropWhile isUpperAlpha with
      | ')' :: rest => some (s2.takeWhile isUpperAlpha, rest)
      | _ => none
    else none
  | _ => none

/-- Extend the non-greedy first group (already holding `acc`, which starts
with the mandatory leading letter) one `[A-Za-z0-9\s\-]` character at a
time, trying `matchTail` after each extension (shortest first).  On
success return (group 1, group 2, remainder). -/
def g1loop (acc : List Char) : List Char → Option (List Char × List Char × List Char)
  | [] => none
  | c :: cs =>
    if isPhraseCh c then
      match matchTail cs with
      | some (ab, rest) => some (acc ++ [c], ab, rest)
      | none => g1loop (acc ++ [c]) cs
    else none

/-- Try the whole pattern anchored at the head of `s`. -/
def matchAt (s : List Char) : Option (List Char × List Char × List Char) :=
  match s with
  | c :: cs => if isAlphaCh c then g1loop [c] cs else none
  | [] => none

/-- Left-to-right non-overlapping scan of `re.findall`, with structural
fuel (one unit per scan step; `fuel ≥ length` always suffices because
every match consumes at least one character). -/
def findallFuel : Nat → List Char → List (List Char × List Char)
  | 0, _ => []
  | _ + 1, [] => []
  | fuel + 1, c :: cs =>
    match matchAt (c :: cs) with
    | some (f, a, rest) => (f, a) :: findallFuel fuel rest
    | none => findallFuel fuel cs

/-- `re.findall(r'([A-Za-z][A-Za-z0-9\s\-]+?)\s*\(([A-Z]{2,8})\)', text)`. -/
def findallAbbr (s : List Char) : List (List Char × List Char) :=
  findallFuel s.length s

/-!
### The hyphen-repair regex

`re.sub(r"(\w+)-\s+(\w+)", r"\1\2", text)` (appQ2.py line 77).  All three
quantifiers are greedy; since `\w`, `-` and `\s` are pairwise disjoint
classes, backtracking never changes anything and each group is simply the
maximal run of its class.
-/

/-- Match `(\w+)-\s+(\w+)` at the head of `s`; on success return the
replacement `\1\2` and the remainder after the match. -/
def matchHyphenAt (s : List Char) : Option (List Char × List Char) :=
  match s with
  | c :: _ =>
    if isWordCh c then
      let w1 := s.takeWhile isWordCh
      match s.dropWhile isWordCh with
      | '-' :: r2 =>
        let sp := r2.takeWhile isSpaceCh
        if sp = [] then none
        else
          let r3 := r2.dropWhile isSpaceCh
          let w2 := r3.takeWhile isWordCh
          if w2 = [] then none
          else some (w1 ++ w2, r3.dropWhile isWordCh)
      | _ => none
    else none
  | [] => none

/-- Left-to-right non-overlapping substitution scan of `re.sub`, with
structural fuel (always run with `fuel ≥ length`). -/
def hyphenFuel : Nat → List Char → List Char
  | 0, s => s
  | _ + 1, [] => []
  | fuel + 1, c :: cs =>
    match matchHyphenAt (c :: cs) with
    | some (rep, rest) => rep ++ hyphenFuel fuel rest
    | none => c :: hyphenFuel fuel cs

/-- `re.sub(r"(\w+)-\s+(\w+)", r"\1\2", text)`: rejoin words split by a
trailing hyphen plus whitespace. -/
def pyReSubHyphen (s : List Char) : List Char := hyphenFuel s.length s

/-!
### The abbreviation indexer (appQ2.py, `extract_abbreviations_simple`)
-/

/-- Score a candidate phrase: `sum(1 for w in phrase.split() if w and
w[0].isupper())` (appQ2.py lines 126-127). -/
def score (phrase : List Char) : Nat :=
  ((pySplit phrase).filter (fun w =>
    match w with
    | c :: _ => isUpperAlpha c
    | [] => false)).length

/-- The last `n` elements of a list, Python `l[-n:]` for `n ≥ 1`. -/
def lastN (n : Nat) (l : List (List Char)) : List (List Char) :=
  l.drop (l.length - n)

/-- Candidate expansions built from the last 4, 3 and 2 word tokens (in
that order), falling back to the whole token list when fewer than 2 tokens
exist (appQ2.py lines 113-123). -/
def candidateList (ws : List (List Char)) : List (List Char) :=
  let c :=
    (if 4 ≤ ws.length then [joinSep [' '] (lastN 4 ws)] else []) ++
    (if 3 ≤ ws.length then [joinSep [' '] (lastN 3 ws)] else []) ++
    (if 2 ≤ ws.length then [joinSep [' '] (lastN 2 ws)] else [])
  if c = [] then [joinSep [' '] ws] else c

/-- Python `max(candidates, key=score)`: keep the first element, replacing
it only when a later element scores strictly higher, so the earliest
maximal element wins (appQ2.py line 129). -/
def pyMaxByScore : List (List Char) → List Char
  | [] => []
  | c :: cs => cs.foldl (fun best x => if score best < score x then x else best) c

/-- The fixed override table `ABBR_OVERRIDES` (appQ2.py lines 93-97). -/
def ABBR_OVERRIDES : List (List Char × List Char) :=
  [("MCMCML".toList, "Markov Chain Monte Carlo Maximum Likelihood".toList),
   ("NSFC".toList, "National Natural Science Foundation of China".toList),
   ("UBID".toList, "Unknown".toList)]

/-- One iteration of the `for full, abbr in matches` loop of
`extract_abbreviations_simple` (appQ2.py lines 101-137), acting on the
accumulated dictionary (an insertion-ordered association list). -/
def stepMatch (d : List (List Char × List Char)) (m : List Char × List Char) :
    List (List Char × List Char) :=
  let abbr := pyStrip m.2
  if pyIsupper abbr = false then d
  else
    let words := wordsOf m.1
    if words = [] then d
    else
      let best := pyMaxByScore (candidateList words)
      let best :=
        match lookupA abbr ABBR_OVERRIDES with
        | some v => v
        | none => best
      match lookupA abbr d with
      | some _ => d
      | none => d ++ [(abbr, best)]

/-- The dictionary `abbr_dict` after the whole scan loop. -/
def abbrDict (text : List Char) : List (List Char × List Char) :=
  (findallAbbr text).foldl stepMatch []

/-- The ordering used by `sorted(abbr_dict.items())`: ascending Python
tuple comparison. -/
def pairLe (p q : List Char × List Char) : Prop := pairLtB q p = false

instance : DecidableRel pairLe := fun p q => by
  unfold pairLe; infer_instance

/-- `sorted(abbr_dict.items())` (appQ2.py line 140).  Python's sort is
stable, but the dictionary's keys are pairwise distinct, so the sorted
sequence is unique and any correct sort with respect to the tuple order
produces it; we use insertion sort. -/
def sortPairs (l : List (List Char × List Char)) : List (List Char × List Char) :=
  List.insertionSort pairLe l

/-- Render one output line, the f-string `f"{abbr}: {full}"`. -/
def renderLine (p : List Char × List Char) : List Char :=
  p.1 ++ ": ".toList ++ p.2

/-- The sorted association list that the output is rendered from. -/
def outPairs (text : List Char) : List (List Char × List Char) :=
  sortPairs (abbrDict text)

/-- The rendered output lines, in final order. -/
def outLines (text : List Char) : List (List Char) :=
  (outPairs text).map renderLine

/-- The fixed message returned when nothing was extracted. -/
def noAbbrMsg : List Char := "No abbreviations found.".toList

/-- `extract_abbreviations_simple` (appQ2.py lines 83-143). -/
def extract_abbreviations_simple (text : List Char) : List Char :=
  if findallAbbr text = [] then noAbbrMsg
  else
    let lines := outLines text
    if lines = [] then noAbbrMsg
    else joinSep ['\n'] lines

/-!
### The text extractors

All three files dispatch on the lowercased filename suffix.  The
format-specific library work (pypdf, python-docx, BeautifulSoup, UTF-8
decoding) is outside this repository; an uploaded file is therefore
modelled as its name together with the text that each library-level branch
would produce for it.  What remains in the repository - the suffix
dispatch, the per-branch stripping, the unsupported-type branch, and
appQ2's hyphen repair - is embedded exactly.
-/

/-- Recognised filename suffix classes. -/
inductive FileKind
  | txt
  | pdf
  | docx
  | html
  | other
deriving DecidableEq, Repr

/-- Suffix dispatch shared by all three extractors: lowercase the name,
then test `.txt`, `.pdf`, `.docx`, `.html`/`.htm` in order. -/
def fileKind (name : List Char) : FileKind :=
  let n := pyLower name
  if strEndsWith n ".txt".toList then .txt
  else if strEndsWith n ".pdf".toList then .pdf
  else if strEndsWith n ".docx".toList then .docx
  else if strEndsWith n ".html".toList || strEndsWith n ".htm".toList then .html
  else .other

/-- An uploaded file: its name and the text each library-level extraction
branch would yield for it (page-joined PDF text, paragraph-joined docx
text, and so on). -/
structure UploadedFile where
  name : List Char
  txtText : List Char
  pdfText : List Char
  docxText : List Char
  htmlText : List Char

/-- The sentinel returned by appQ1/appQ4 for unsupported suffixes. -/
def unsupportedSentinel : List Char := "<<Unsupported file type>>".toList

/-- `extract_text_from_uploaded_file` of appQ1.py (lines 18-49): the txt
branch returns the decoded text unstripped; the pdf, docx and html
branches strip; unrecognised suffixes yield the sentinel. -/
def extract_text_Q1 (f : UploadedFile) : List Char :=
  match fileKind f.name with
  | .txt => f.txtText
  | .pdf => pyStrip f.pdfText
  | .docx => pyStrip f.docxText
  | .html => pyStrip f.htmlText
  | .other => unsupportedSentinel

/-- `extract_text_from_uploaded_file` of appQ4.py (lines 30-60): same
shape as appQ1's. -/
def extract_text_Q4 (f : UploadedFile) : List Char :=
  match fileKind f.name with
  | .txt => f.txtText
  | .pdf => pyStrip f.pdfText
  | .docx => pyStrip f.docxText
  | .html => pyStrip f.htmlText
  | .other => unsupportedSentinel

/-- `extract_text_from_uploaded_file` of appQ2.py (lines 42-79): the
unsupported branch sets `text = ""`; afterwards the hyphen repair runs and
the result is stripped. -/
def extract_text_Q2 (f : UploadedFile) : List Char :=
  let text :=
    match fileKind f.name with
    | .txt => f.txtText
    | .pdf => f.pdfText
    | .docx => f.docxText
    | .html => f.htmlText
    | .other => []
  pyStrip (pyReSubHyphen text)

/-!
### The Send handlers

A conversation entry is a role-content pair; `st.session_state.history`
is the append-only list the handlers mutate.  The external model call
(ollama.chat in appQ1, the OpenAI client block in appQ4) is modelled as a
function from the prompt to `Except err reply`: `Except.error` is a raised
exception.  appQ4 wraps its call in try/except and converts the exception
into a reply string; appQ1 has no such handler, so an exception there
propagates, which the embedding renders as an `Except.error` result of the
whole handler.
-/

/-- A conversation entry. -/
structure Msg where
  role : List Char
  content : List Char
deriving DecidableEq, Repr

/-- The fixed user-entry content of appQ2's Send handler (line 176). -/
def docAttachedMsg : List Char := "\n\n[Document attached and processed]".toList

/-- The Send handler of appQ2.py (lines 167-185).  The second argument is
`none` when no file is uploaded, otherwise the extracted text. -/
def sendQ2 (hist : List Msg) (fileText : Option (List Char)) : List Msg :=
  match fileText with
  | none => hist
  | some t =>
    if t = [] then hist
    else
      hist ++ [⟨"user".toList, docAttachedMsg⟩,
               ⟨"assistant".toList, extract_abbreviations_simple t⟩]

/-- The display message built by appQ4's Send handler (lines 96-107). -/
def displayMessageQ4 (question : List Char) (up : Option UploadedFile)
    (fileText : Option (List Char)) : List Char :=
  match up with
  | some u =>
    if fileText.getD [] ≠ [] then
      question ++ "\n\n[Document uploaded: ".toList ++ u.name
        ++ " ingested successfully]".toList
    else
      question ++ "\n\n[Document uploaded: ".toList ++ u.name
        ++ " (no text extracted)]".toList
  | none => question

/-- The prompt built by appQ4's Send handler (lines 113-124): the document
text is embedded when it is truthy, otherwise the bare question. -/
def promptQ4 (question : List Char) (fileText : Option (List Char)) : List Char :=
  match fileText with
  | some t =>
    if t ≠ [] then
      "\nYou are given a question and the full text of a document.\n\nQuestion:\n".toList
        ++ question ++ "\n\nDocument text:\n".toList ++ t ++ "\n".toList
    else question
  | none => question

/-- The error-reply prefix of appQ4's except branch (line 153). -/
def errPrefixQ4 : List Char := "Error calling OpenAI API: ".toList

/-- The Send handler of appQ4.py (lines 90-157).  `gateway` models the
whole try-block (client construction, API call, reply extraction); a
raised exception is its `Except.error` case and is converted into a
displayable reply, never escaping the handler. -/
def sendQ4 (hist : List Msg) (apiKey question : List Char)
    (up : Option UploadedFile) (fileText : Option (List Char))
    (gateway : List Char → Except (List Char) (List Char)) : List Msg :=
  if pyStrip apiKey = [] then hist
  else if pyStrip question = [] then hist
  else
    let hist1 := hist ++ [⟨"user".toList, displayMessageQ4 question up fileText⟩]
    let reply :=
      match gateway (promptQ4 question fileText) with
      | .ok r => r
      | .error e => errPrefixQ4 ++ e
    hist1 ++ [⟨"assistant".toList, reply⟩]

/-- The prompt built by appQ1's Send handler (lines 88-99). -/
def promptQ1 (question : List Char) (fileText : Option (List Char)) : List Char :=
  match fileText with
  | some t =>
    if t ≠ [] then
      "\nYou are an assistant. Answer the user's question using the document text provided.\n\nQuestion:\n".toList
        ++ question ++ "\n\nDocument text:\n".toList ++ t ++ "\n".toList
    else question
  | none => question

/-- The Send handler of appQ1.py (lines 72-112).  The model call is not
wrapped in any exception handler, so a gateway error propagates out of the
handler (the `Except.error` case of the result); note the user entry has
already been appended to the session state when the call raises. -/
def sendQ1 (hist : List Msg) (question : List Char)
    (up : Option UploadedFile) (fileText : Option (List Char))
    (gateway : List Char → Except (List Char) (List Char)) :
    Except (List Char) (List Msg) :=
  if pyStrip question ≠ [] then
    let display :=
      match up with
      | some u =>
        question ++ "\n\n[Document uploaded: ".toList ++ u.name
          ++ " ingested successfully]".toList
      | none => question
    let hist1 := hist ++ [⟨"user".toList, display⟩]
    match gateway (promptQ1 question fileText) with
    | .error e => .error e
    | .ok reply => .ok (hist1 ++ [⟨"assistant".toList, reply⟩])
  else .ok hist

/-!
### Specification-side observers

These two decidable observers render phrases of the specification ("the
text contains a parenthesized all-uppercase token of 2-8 letters", "a word
token ending in a hyphen immediately followed by whitespace and another
word token") for use in claim statements; they are not part of the
program.
-/

/-- The text begins with a parenthesized all-uppercase token of length
2 to 8: an opening parenthesis whose maximal following uppercase run has
length between 2 and 8 and is immediately closed. -/
def isParenTok : List Char → Bool
  | '(' :: rest =>
    decide (2 ≤ (rest.takeWhile isUpperAlpha).length) &&
    decide ((rest.takeWhile isUpperAlpha).length ≤ 8) &&
    (match rest.dropWhile isUpperAlpha with
     | ')' :: _ => true
     | _ => false)
  | _ => false

/-- The text contains a parenthesized all-uppercase token of length 2 to 8
at some position. -/
def hasParenToken : List Char → Bool
  | [] => false
  | c :: cs => isParenTok (c :: cs) || hasParenToken cs

/-- The text begins with a hyphen-split word artifact: a word character,
a hyphen, at least one whitespace character, then a word character. -/
def isSplitArtifactAt : List Char → Bool
  | a :: '-' :: b :: rest =>
    isWordCh a && isSpaceCh b &&
    (match (b :: rest).dropWhile isSpaceCh with
     | d :: _ => isWordCh d
     | [] => false)
  | _ => false

/-- The text contains a hyphen-split word artifact at some position. -/
def hasSplitArtifact : List Char → Bool
  | [] => false
  | c :: cs => isSplitArtifactAt (c :: cs) || hasSplitArtifact cs

/-!
### Scanner lemmas
-/

/-- Dropping a prefix never lengthens a list. -/
theorem length_dropWhileCh_le (p : Char → Bool) (l : List Char) :
    (l.dropWhile p).length ≤ l.length := by
  induction l with
  | nil => simp
  | cons c cs ih =>
    rw [List.dropWhile_cons]
    split
    · exact Nat.le_trans ih (Nat.le_succ _)
    · simp

/-- A successful tail match consumes at least the parentheses. -/
theorem matchTail_len {s a r : List Char} (h : matchTail s = some (a, r)) :
    r.length < s.length := by
  have h1 := length_dropWhileCh_le isSpaceCh s
  unfold matchTail at h
  split at h
  next s2 heq =>
    have h2 := length_dropWhileCh_le isUpperAlpha s2
    split at h
    · split at h
      next rest heq2 =>
        injection h with h'
        rw [Prod.mk.injEq] at h'
        obtain ⟨-, rfl⟩ := h'
        rw [heq] at h1
        rw [heq2] at h2
        simp only [List.length_cons] at h1 h2
        omega
      next => exact absurd h (by simp)
    · exact absurd h (by simp)
  next => exact absurd h (by simp)

/-- A successful group-1 extension consumes at least one character beyond
the tail match. -/
theorem g1loop_len {acc cs : List Char} {x : List Char × List Char × List Char}
    (h : g1loop acc cs = some x) : x.2.2.length < cs.length := by
  induction cs generalizing acc with
  | nil => simp [g1loop] at h
  | cons c cs' ih =>
    rw [g1loop] at h
    split at h
    · split at h
      next ab rest heq =>
        injection h with h'
        have : x.2.2 = rest := by rw [← h']
        rw [this]
        exact Nat.lt_trans (matchTail_len heq) (by simp)
      next => exact Nat.lt_trans (ih h) (by simp)
    · exact absurd h (by simp)

/-- A successful match consumes at least one character. -/
theorem matchAt_len {s : List Char} {x : List Char × List Char × List Char}
    (h : matchAt s = some x) : x.2.2.length < s.length := by
  cases s with
  | nil => simp [matchAt] at h
  | cons c cs =>
    rw [matchAt] at h
    split at h
    · exact Nat.lt_trans (g1loop_len h) (by simp)
    · exact absurd h (by simp)

/-- The fuel argument is irrelevant once it is at least the length of the
text. -/
theorem findallFuel_congr :
    ∀ (f1 f2 : Nat) (s : List Char), s.length ≤ f1 → s.length ≤ f2 →
      findallFuel f1 s = findallFuel f2 s := by
  intro f1
  induction f1 with
  | zero =>
    intro f2 s h1 _
    have : s = [] := List.length_eq_zero.mp (Nat.le_zero.mp h1)
    subst this
    cases f2 <;> rfl
  | succ f1 ih =>
    intro f2 s h1 h2
    cases s with
    | nil => cases f2 <;> rfl
    | cons c cs =>
      simp only [List.length_cons] at h1 h2
      cases f2 with
      | zero => omega
      | succ f2' =>
        simp only [findallFuel]
        cases hm : matchAt (c :: cs) with
        | some x =>
          obtain ⟨f, a, rest⟩ := x
          have hr := matchAt_len hm
          simp only [List.length_cons] at hr
          exact congrArg _ (ih f2' rest (by omega) (by omega))
        | none => exact ih f2' cs (by omega) (by omega)

/-- Unfolding `findallAbbr` at a successful match position. -/
theorem findallAbbr_some {s f a rest : List Char}
    (h : matchAt s = some (f, a, rest)) :
    findallAbbr s = (f, a) :: findallAbbr rest := by
  cases s with
  | nil => simp [matchAt] at h
  | cons c cs =>
    have hr := matchAt_len h
    simp only [List.length_cons] at hr
    unfold findallAbbr
    simp only [List.length_cons, findallFuel, h]
    exact congrArg _ (findallFuel_congr cs.length rest.length rest (by omega) (Nat.le_refl _))

/-!
### Dictionary lemmas
-/

/-- Lookups are stable under appending entries on the right. -/
theorem lookupA_append_some {k v : List Char} {d l : List (List Char × List Char)}
    (h : lookupA k d = some v) : lookupA k (d ++ l) = some v := by
  induction d with
  | nil => simp [lookupA] at h
  | cons p rest ih =>
    obtain ⟨a, b⟩ := p
    rw [lookupA] at h
    rw [List.cons_append, lookupA]
    split
    · rwa [if_pos (by assumption)] at h
    · rw [if_neg (by assumption)] at h
      exact ih h

/-- Appending a fresh entry makes its key found. -/
theorem lookupA_append_self {k v : List Char} {d : List (List Char × List Char)}
    (h : lookupA k d = none) : lookupA k (d ++ [(k, v)]) = some v := by
  induction d with
  | nil => simp [lookupA]
  | cons p rest ih =>
    obtain ⟨a, b⟩ := p
    rw [lookupA] at h
    rw [List.cons_append, lookupA]
    split
    · rw [if_pos (by assumption)] at h
      exact absurd h (by simp)
    · rw [if_neg (by assumption)] at h
      exact ih h

/-- Appending an entry with a different key does not change a lookup. -/
theorem lookupA_append_other {k a b : List Char} {d : List (List Char × List Char)}
    (h : a ≠ k) : lookupA k (d ++ [(a, b)]) = lookupA k d := by
  induction d with
  | nil =>
    simp only [List.nil_append, lookupA]
    rw [if_neg (fun h' => h h'.symm)]
  | cons p rest ih =>
    obtain ⟨x, y⟩ := p
    rw [List.cons_append, lookupA, lookupA]
    split
    · rfl
    · exact ih

/-- A found key is a member of the association list. -/
theorem lookupA_some_mem {k v : List Char} {d : List (List Char × List Char)}
    (h : lookupA k d = some v) : (k, v) ∈ d := by
  induction d with
  | nil => simp [lookupA] at h
  | cons p rest ih =>
    obtain ⟨a, b⟩ := p
    rw [lookupA] at h
    split at h
    · injection h with h'
      subst h'
      simp_all
    · exact List.mem_cons_of_mem _ (ih h)

/-- A missing key is absent from the key list. -/
theorem lookupA_none_not_mem {k : List Char} {d : List (List Char × List Char)}
    (h : lookupA k d = none) : k ∉ d.map Prod.fst := by
  induction d with
  | nil => simp
  | cons p rest ih =>
    obtain ⟨a, b⟩ := p
    rw [lookupA] at h
    split at h
    · exact absurd h (by simp)
    · simp only [List.map_cons, List.mem_cons]
      rintro (rfl | hm)
      · exact absurd rfl (by assumption)
      · exact ih h hm

/-- Each loop iteration either leaves the dictionary unchanged or appends
one entry whose key was not yet present. -/
theorem stepMatch_cases (d : List (List Char × List Char)) (m : List Char × List Char) :
    stepMatch d m = d ∨
      ∃ a b, lookupA a d = none ∧ stepMatch d m = d ++ [(a, b)] := by
  simp only [stepMatch]
  split
  · exact Or.inl rfl
  · split
    · exact Or.inl rfl
    · split
      next heq => exact Or.inl rfl
      next heq => exact Or.inr ⟨_, _, heq, rfl⟩

/-- Recorded entries survive the rest of the scan loop unchanged. -/
theorem foldl_stepMatch_preserve {k v : List Char}
    (ms : List (List Char × List Char)) (d : List (List Char × List Char))
    (h : lookupA k d = some v) :
    lookupA k (ms.foldl stepMatch d) = some v := by
  induction ms generalizing d with
  | nil => simpa using h
  | cons m rest ih =>
    rw [List.foldl_cons]
    apply ih
    rcases stepMatch_cases d m with hc | ⟨a, b, -, hc⟩
    · rwa [hc]
    · rw [hc]
      exact lookupA_append_some h

/-- The scan loop never records the same key twice. -/
theorem foldl_stepMatch_nodup (ms : List (List Char × List Char))
    (d : List (List Char × List Char)) (h : (d.map Prod.fst).Nodup) :
    (((ms.foldl stepMatch d)).map Prod.fst).Nodup := by
  induction ms generalizing d with
  | nil => simpa using h
  | cons m rest ih =>
    rw [List.foldl_cons]
    apply ih
    rcases stepMatch_cases d m with hc | ⟨a, b, hnone, hc⟩
    · rwa [hc]
    · rw [hc]
      simp only [List.map_append, List.map_cons, List.map_nil]
      rw [List.nodup_append]
      exact ⟨h, List.nodup_singleton a,
        by simpa using fun hm => (lookupA_none_not_mem hnone) hm⟩

/-- The abbreviation index has pairwise-distinct keys. -/
theorem abbrDict_keys_nodup (text : List Char) :
    ((abbrDict text).map Prod.fst).Nodup :=
  foldl_stepMatch_nodup _ _ (by simp)

/-!
### Parenthesized-token presence lemmas (for the empty-result claim)
-/

/-- Token presence in a suffix lifts to the whole text. -/
theorem hasParenToken_append {a b : List Char} (h : hasParenToken b = true) :
    hasParenToken (a ++ b) = true := by
  induction a with
  | nil => simpa using h
  | cons c cs ih =>
    cases hb : cs ++ b with
    | nil =>
      rw [hb] at ih
      cases b with
      | nil => simp [hasParenToken] at h
      | cons x xs => simp at hb
    | cons x xs =>
      rw [List.cons_append, hb, hasParenToken, ← hb, ih]
      simp

/-- A successful tail match exhibits a parenthesized token. -/
theorem matchTail_hasParen {s : List Char} {x : List Char × List Char}
    (h : matchTail s = some x) : hasParenToken s = true := by
  unfold matchTail at h
  split at h
  next s2 heq =>
    split at h
    next hlen =>
      split at h
      next rest heq2 =>
        have htok : isParenTok ('(' :: s2) = true := by
          rw [isParenTok, heq2]
          simp only [Bool.and_eq_true, decide_eq_true_eq]
          exact ⟨⟨hlen.1, hlen.2⟩, trivial⟩
        have : hasParenToken ('(' :: s2) = true := by
          rw [hasParenToken, htok]
          simp
        calc hasParenToken s
            = hasParenToken (s.takeWhile isSpaceCh ++ s.dropWhile isSpaceCh) := by
              rw [List.takeWhile_append_dropWhile]
          _ = true := by rw [heq]; exact hasParenToken_append this
      next => exact absurd h (by simp)
    next => exact absurd h (by simp)
  next => exact absurd h (by simp)

/-- A successful group-1 loop exhibits a parenthesized token in its
remaining input. -/
theorem g1loop_hasParen {acc cs : List Char} {x : List Char × List Char × List Char}
    (h : g1loop acc cs = some x) : hasParenToken cs = true := by
  induction cs generalizing acc with
  | nil => simp [g1loop] at h
  | cons c cs' ih =>
    rw [g1loop] at h
    split at h
    · split at h
      next ab rest heq =>
        rw [hasParenToken, matchTail_hasParen heq]
        simp
      next =>
        rw [hasParenToken, ih h]
        simp
    · exact absurd h (by simp)

/-- A successful match exhibits a parenthesized token. -/
theorem matchAt_hasParen {s : List Char} {x : List Char × List Char × List Char}
    (h : matchAt s = some x) : hasParenToken s = true := by
  cases s with
  | nil => simp [matchAt] at h
  | cons c cs =>
    rw [matchAt] at h
    split at h
    · rw [hasParenToken, g1loop_hasParen h]
      simp
    · exact absurd h (by simp)

/-- A nonempty scan result exhibits a parenthesized token. -/
theorem findallFuel_ne_nil {fuel : Nat} {s : List Char}
    (h : findallFuel fuel s ≠ []) : hasParenToken s = true := by
  induction fuel generalizing s with
  | zero => simp [findallFuel] at h
  | succ fuel ih =>
    cases s with
    | nil => simp [findallFuel] at h
    | cons c cs =>
      rw [findallFuel] at h
      cases hm : matchAt (c :: cs) with
      | some x => exact matchAt_hasParen hm
      | none =>
        rw [hm] at h
        rw [hasParenToken, ih h]
        simp

/-!
### Hyphen-repair lemmas
-/

/-- A run satisfying `p` is taken whole. -/
theorem takeWhile_all {p : Char → Bool} {l : List Char}
    (h : ∀ c ∈ l, p c = true) : l.takeWhile p = l := by
  induction l with
  | nil => rfl
  | cons c cs ih =>
    rw [List.takeWhile_cons, if_pos (h c (by simp))]
    rw [ih (fun x hx => h x (by simp [hx]))]

/-- A run satisfying `p` is dropped whole. -/
theorem dropWhile_all {p : Char → Bool} {l : List Char}
    (h : ∀ c ∈ l, p c = true) : l.dropWhile p = [] := by
  induction l with
  | nil => rfl
  | cons c cs ih =>
    rw [List.dropWhile_cons, if_pos (h c (by simp))]
    exact ih (fun x hx => h x (by simp [hx]))

/-- Taking while `p` over a satisfying run followed by a failing character
stops exactly at the boundary. -/
theorem takeWhile_append_stop {p : Char → Bool} {l r : List Char} {x : Char}
    (hl : ∀ c ∈ l, p c = true) (hx : p x = false) :
    (l ++ x :: r).takeWhile p = l := by
  induction l with
  | nil => simp [List.takeWhile_cons, hx]
  | cons c cs ih =>
    rw [List.cons_append, List.takeWhile_cons, if_pos (hl c (by simp))]
    rw [ih (fun y hy => hl y (by simp [hy]))]

/-- Dropping while `p` over a satisfying run followed by a failing
character stops exactly at the boundary. -/
theorem dropWhile_append_stop {p : Char → Bool} {l r : List Char} {x : Char}
    (hl : ∀ c ∈ l, p c = true) (hx : p x = false) :
    (l ++ x :: r).dropWhile p = x :: r := by
  induction l with
  | nil => simp [List.dropWhile_cons, hx]
  | cons c cs ih =>
    rw [List.cons_append, List.dropWhile_cons, if_pos (hl c (by simp))]
    exact ih (fun y hy => hl y (by simp [hy]))

/-- ASCII whitespace is never a word character. -/
theorem space_not_word {c : Char} (h : isSpaceCh c = true) : isWordCh c = false := by
  simp only [isSpaceCh, Bool.or_eq_true, beq_iff_eq] at h
  rcases h with ((((rfl | rfl) | rfl) | rfl) | rfl) | rfl <;> decide

/-- A word character is never ASCII whitespace. -/
theorem word_not_space {c : Char} (h : isWordCh c = true) : isSpaceCh c = false := by
  cases hs : isSpaceCh c with
  | false => rfl
  | true => rw [space_not_word hs] at h; exact absurd h (by simp)

/-- The hyphen-repair match on a text that is exactly one split word:
word run, hyphen, whitespace run, word run. -/
theorem matchHyphenAt_exact {w1 ws w2 : List Char}
    (h1 : w1 ≠ []) (hw1 : ∀ c ∈ w1, isWordCh c = true)
    (h2 : ws ≠ []) (hws : ∀ c ∈ ws, isSpaceCh c = true)
    (h3 : w2 ≠ []) (hw2 : ∀ c ∈ w2, isWordCh c = true) :
    matchHyphenAt (w1 ++ '-' :: (ws ++ w2)) = some (w1 ++ w2, []) := by
  obtain ⟨c, w1', rfl⟩ := List.exists_cons_of_ne_nil h1
  obtain ⟨d, w2', rfl⟩ := List.exists_cons_of_ne_nil h3
  have htake1 : ((c :: w1') ++ '-' :: (ws ++ d :: w2')).takeWhile isWordCh = c :: w1' :=
    takeWhile_append_stop hw1 (by decide)
  have hdrop1 : ((c :: w1') ++ '-' :: (ws ++ d :: w2')).dropWhile isWordCh
      = '-' :: (ws ++ d :: w2') :=
    dropWhile_append_stop hw1 (by decide)
  have htake2 : (ws ++ d :: w2').takeWhile isSpaceCh = ws :=
    takeWhile_append_stop hws (word_not_space (hw2 d (by simp)))
  have hdrop2 : (ws ++ d :: w2').dropWhile isSpaceCh = d :: w2' :=
    dropWhile_append_stop hws (word_not_space (hw2 d (by simp)))
  have htake3 : (d :: w2').takeWhile isWordCh = d :: w2' := takeWhile_all hw2
  have hdrop3 : (d :: w2').dropWhile isWordCh = [] := dropWhile_all hw2
  rw [List.cons_append]
  rw [matchHyphenAt]
  rw [if_pos (hw1 c (by simp))]
  rw [← List.cons_append, htake1, hdrop1]
  simp only [htake2, hdrop2, htake3, hdrop3]
  rw [if_neg h2]
  rw [if_neg (by simp)]

/-- The substitution scan is the identity on the empty text, whatever the
fuel. -/
theorem hyphenFuel_nil (fuel : Nat) : hyphenFuel fuel [] = [] := by
  cases fuel <;> rfl

/-- The repair rewrite on a text that is exactly one split word. -/
theorem pyReSubHyphen_exact {w1 ws w2 : List Char}
    (h1 : w1 ≠ []) (hw1 : ∀ c ∈ w1, isWordCh c = true)
    (h2 : ws ≠ []) (hws : ∀ c ∈ ws, isSpaceCh c = true)
    (h3 : w2 ≠ []) (hw2 : ∀ c ∈ w2, isWordCh c = true) :
    pyReSubHyphen (w1 ++ '-' :: (ws ++ w2)) = w1 ++ w2 := by
  have hm := matchHyphenAt_exact h1 hw1 h2 hws h3 hw2
  obtain ⟨c, w1', rfl⟩ := List.exists_cons_of_ne_nil h1
  rw [List.cons_append] at hm
  unfold pyReSubHyphen
  rw [List.cons_append, List.length_cons]
  rw [hyphenFuel, hm]
  show (c :: w1' ++ w2) ++ hyphenFuel (w1' ++ '-' :: (ws ++ w2)).length [] = c :: w1' ++ w2
  rw [hyphenFuel_nil, List.append_nil]

/-!
### Order lemmas for the output sort
-/

/-- Strict string comparison is irreflexive. -/
theorem strLtB_irrefl (a : List Char) : strLtB a a = false := by
  induction a with
  | nil => rfl
  | cons c cs ih =>
    rw [strLtB, if_neg (lt_irrefl c), if_neg (lt_irrefl c)]
    exact ih

/-- Strict string comparison is asymmetric. -/
theorem strLtB_asymm {a b : List Char} (h : strLtB a b = true) : strLtB b a = false := by
  induction a generalizing b with
  | nil =>
    cases b with
    | nil => simp [strLtB] at h
    | cons d ds => rfl
  | cons c cs ih =>
    cases b with
    | nil => simp [strLtB] at h
    | cons d ds =>
      rw [strLtB] at h
      rw [strLtB]
      rcases lt_trichotomy c d with hcd | rfl | hdc
      · rw [if_neg (asymm hcd), if_pos hcd]
      · rw [if_neg (lt_irrefl c), if_neg (lt_irrefl c)] at h ⊢
        exact ih h
      · rw [if_neg (asymm hdc), if_pos hdc] at h
        exact absurd h (by simp)

/-- Strict string comparison is transitive. -/
theorem strLtB_trans {a b c : List Char} (h1 : strLtB a b = true)
    (h2 : strLtB b c = true) : strLtB a c = true := by
  induction a generalizing b c with
  | nil =>
    cases c with
    | nil =>
      cases b with
      | nil => simp [strLtB] at h2
      | cons y bs => simp [strLtB] at h2
    | cons z cs => rfl
  | cons x as ih =>
    cases b with
    | nil => simp [strLtB] at h1
    | cons y bs =>
      cases c with
      | nil => simp [strLtB] at h2
      | cons z cs =>
        rw [strLtB] at h1 h2 ⊢
        rcases lt_trichotomy x y with hxy | rfl | hyx
        · rcases lt_trichotomy y z with hyz | rfl | hzy
          · rw [if_pos (lt_trans hxy hyz)]
          · rw [if_pos hxy]
          · rw [if_neg (asymm hzy), if_pos hzy] at h2
            exact absurd h2 (by simp)
        · rw [if_neg (lt_irrefl x), if_neg (lt_irrefl x)] at h1
          rcases lt_trichotomy x z with hxz | rfl | hzx
          · rw [if_pos hxz]
          · rw [if_neg (lt_irrefl x), if_neg (lt_irrefl x)] at h2 ⊢
            exact ih h1 h2
          · rw [if_neg (asymm hzx), if_pos hzx] at h2
            exact absurd h2 (by simp)
        · rw [if_neg (asymm hyx), if_pos hyx] at h1
          exact absurd h1 (by simp)

/-- Two strings that compare below each other in neither direction are
equal. -/
theorem strLtB_connex {a b : List Char} (h1 : strLtB a b = false)
    (h2 : strLtB b a = false) : a = b := by
  induction a generalizing b with
  | nil =>
    cases b with
    | nil => rfl
    | cons y bs => simp [strLtB] at h1
  | cons x as ih =>
    cases b with
    | nil => simp [strLtB] at h2
    | cons y bs =>
      rw [strLtB] at h1 h2
      rcases lt_trichotomy x y with hxy | rfl | hyx
      · rw [if_pos hxy] at h1
        exact absurd h1 (by simp)
      · rw [if_neg (lt_irrefl x), if_neg (lt_irrefl x)] at h1 h2
        rw [ih h1 h2]
      · rw [if_pos hyx] at h2
        exact absurd h2 (by simp)

/-- Pair comparison is asymmetric. -/
theorem pairLtB_asymm {p q : List Char × List Char} (h : pairLtB p q = true) :
    pairLtB q p = false := by
  unfold pairLtB at h ⊢
  simp only [Bool.or_eq_true, Bool.and_eq_true, decide_eq_true_eq] at h
  rcases h with h1 | ⟨heq, h2⟩
  · have ha := strLtB_asymm h1
    have hne : ¬(q.1 = p.1) := by
      rintro hq
      rw [hq] at h1
      rw [strLtB_irrefl] at h1
      exact absurd h1 (by simp)
    simp [ha, hne]
  · have ha := strLtB_asymm h2
    simp [← heq, strLtB_irrefl, ha]

/-- Pair comparison is transitive. -/
theorem pairLtB_trans {p q r : List Char × List Char} (h1 : pairLtB p q = true)
    (h2 : pairLtB q r = true) : pairLtB p r = true := by
  unfold pairLtB at h1 h2 ⊢
  simp only [Bool.or_eq_true, Bool.and_eq_true, decide_eq_true_eq] at h1 h2 ⊢
  rcases h1 with ha | ⟨hae, ha2⟩
  · rcases h2 with hb | ⟨hbe, hb2⟩
    · exact Or.inl (strLtB_trans ha hb)
    · exact Or.inl (hbe ▸ ha)
  · rcases h2 with hb | ⟨hbe, hb2⟩
    · exact Or.inl (hae ▸ hb)
    · exact Or.inr ⟨hae.trans hbe, strLtB_trans ha2 hb2⟩

/-- Two pairs that compare below each other in neither direction are
equal. -/
theorem pairLtB_connex {p q : List Char × List Char} (h1 : pairLtB p q = false)
    (h2 : pairLtB q p = false) : p = q := by
  unfold pairLtB at h1 h2
  rw [Bool.or_eq_false_iff] at h1 h2
  obtain ⟨h1a, h1b⟩ := h1
  obtain ⟨h2a, h2b⟩ := h2
  have hkey : p.1 = q.1 := strLtB_connex h1a h2a
  rw [Bool.and_eq_false_iff] at h1b
  rcases h1b with hb | hb
  · rw [decide_eq_false_iff_not] at hb
    exact absurd hkey hb
  · rw [Bool.and_eq_false_iff] at h2b
    rcases h2b with hc | hc
    · rw [decide_eq_false_iff_not] at hc
      exact absurd hkey.symm hc
    · have hval : p.2 = q.2 := strLtB_connex hb hc
      exact Prod.ext hkey hval

instance : IsTotal (List Char × List Char) pairLe := by
  constructor
  intro p q
  cases h : pairLtB p q with
  | true => exact Or.inl (pairLtB_asymm h)
  | false => exact Or.inr h

instance : IsTrans (List Char × List Char) pairLe := by
  constructor
  intro p q r h1 h2
  unfold pairLe at h1 h2 ⊢
  cases hr : pairLtB r p with
  | false => rfl
  | true =>
    exfalso
    cases hq : pairLtB p q with
    | true =>
      have := pairLtB_trans hr hq
      rw [this] at h2
      exact absurd h2 (by simp)
    | false =>
      have : p = q := pairLtB_connex hq h1
      rw [← this] at h2
      rw [hr] at h2
      exact absurd h2 (by simp)

/-- The rendered pairs are sorted with respect to the tuple order. -/
theorem sortPairs_sorted (l : List (List Char × List Char)) :
    List.Sorted pairLe (sortPairs l) :=
  List.sorted_insertionSort pairLe l

/-- Sorting permutes the entries. -/
theorem sortPairs_perm (l : List (List Char × List Char)) :
    (sortPairs l).Perm l :=
  List.perm_insertionSort pairLe l

/-- The sorted output pairs are strictly increasing in their keys. -/
theorem outPairs_strict (text : List Char) :
    List.Pairwise (fun p q => strLtB p.1 q.1 = true) (outPairs text) := by
  have hs : List.Pairwise pairLe (outPairs text) := sortPairs_sorted (abbrDict text)
  have hperm : (outPairs text).Perm (abbrDict text) := sortPairs_perm _
  have hnd : ((outPairs text).map Prod.fst).Nodup :=
    ((hperm.map Prod.fst).nodup_iff).mpr (abbrDict_keys_nodup text)
  have hp : List.Pairwise (fun p q : List Char × List Char => p.1 ≠ q.1) (outPairs text) :=
    (List.pairwise_map).mp hnd
  refine (hs.and hp).imp ?_
  rintro p q ⟨hle, hne⟩
  have h1 : strLtB q.1 p.1 = false := by
    unfold pairLe pairLtB at hle
    exact (Bool.or_eq_false_iff.mp hle).1
  cases hlt : strLtB p.1 q.1 with
  | true => rfl
  | false => exact absurd (strLtB_connex hlt h1) hne

/-!
### Override lemmas
-/

/-- Refined case analysis of one loop step: it either leaves the
dictionary unchanged, or appends the (stripped) matched abbreviation with
a value that agrees with the override table whenever that key is
overridden. -/
theorem stepMatch_cases_value (d : List (List Char × List Char))
    (m : List Char × List Char) :
    stepMatch d m = d ∨
      ∃ b, lookupA (pyStrip m.2) d = none ∧
        stepMatch d m = d ++ [(pyStrip m.2, b)] ∧
        (∀ v, lookupA (pyStrip m.2) ABBR_OVERRIDES = some v → b = v) := by
  simp only [stepMatch]
  split
  · exact Or.inl rfl
  · split
    · exact Or.inl rfl
    · cases hov : lookupA (pyStrip m.2) ABBR_OVERRIDES with
      | some v =>
        split
        next => exact Or.inl rfl
        next heq =>
          refine Or.inr ⟨v, heq, rfl, ?_⟩
          intro v' hv'
          exact Option.some.inj hv'
      | none =>
        split
        next => exact Or.inl rfl
        next heq =>
          refine Or.inr ⟨_, heq, rfl, ?_⟩
          intro v' hv'
          simp at hv'

/-- One loop step preserves the invariant that an overridden key, if
recorded, is recorded with its override value. -/
theorem stepMatch_override_inv {k v : List Char}
    (hov : lookupA k ABBR_OVERRIDES = some v)
    {d : List (List Char × List Char)}
    (hd : ∀ w, lookupA k d = some w → w = v)
    (m : List Char × List Char) :
    ∀ w, lookupA k (stepMatch d m) = some w → w = v := by
  intro w hw
  rcases stepMatch_cases_value d m with hc | ⟨b, hnone, hc, hb⟩
  · rw [hc] at hw
    exact hd w hw
  · by_cases hk : pyStrip m.2 = k
    · rw [hc] at hw
      rw [hk] at hnone hw
      have hself : lookupA k (d ++ [(k, b)]) = some b := lookupA_append_self hnone
      have hwb : some w = some b := hw.symm.trans hself
      injection hwb with hwb
      rw [hwb]
      exact hb v (by rw [hk]; exact hov)
    · rw [hc, lookupA_append_other hk] at hw
      exact hd w hw

/-- Processing a surviving match whose key is overridden makes the key
present with the override's value. -/
theorem stepMatch_mem_override {k v full : List Char}
    (hov : lookupA k ABBR_OVERRIDES = some v)
    (hs : pyStrip k = k) (hu : pyIsupper k = true) (hw : wordsOf full ≠ [])
    {d : List (List Char × List Char)}
    (hd : ∀ w, lookupA k d = some w → w = v) :
    lookupA k (stepMatch d (full, k)) = some v := by
  simp only [stepMatch, hs]
  rw [if_neg (by simp [hu]), if_neg hw, hov]
  cases hk : lookupA k d with
  | some w =>
    show lookupA k d = some v
    rw [hk, hd w hk]
  | none =>
    show lookupA k (d ++ [(k, v)]) = some v
    exact lookupA_append_self hk

/-- Scanning a match list that contains a surviving occurrence of an
overridden key records exactly the override's value for it. -/
theorem foldl_stepMatch_override {k v full : List Char}
    (hov : lookupA k ABBR_OVERRIDES = some v)
    (hs : pyStrip k = k) (hu : pyIsupper k = true) (hw : wordsOf full ≠ []) :
    ∀ (ms : List (List Char × List Char)) (d : List (List Char × List Char)),
      (full, k) ∈ ms → (∀ w, lookupA k d = some w → w = v) →
      lookupA k (ms.foldl stepMatch d) = some v := by
  intro ms
  induction ms with
  | nil => intro d h _; simp at h
  | cons m rest ih =>
    intro d hmem hd
    rw [List.foldl_cons]
    rcases List.mem_cons.mp hmem with rfl | hmem'
    · exact foldl_stepMatch_preserve rest _ (stepMatch_mem_override hov hs hu hw hd)
    · exact ih _ hmem' (stepMatch_override_inv hov hd m)

/-!
### Maximum-selection lemmas
-/

/-- The running maximum of the stable scan bounds the seed and every
scanned element. -/
theorem foldl_maxScore_ge (l : List (List Char)) (init : List Char) :
    score init ≤
        score (l.foldl (fun best x => if score best < score x then x else best) init) ∧
      ∀ x ∈ l,
        score x ≤
          score (l.foldl (fun best x => if score best < score x then x else best) init) := by
  induction l generalizing init with
  | nil => simp
  | cons c cs ih =>
    rw [List.foldl_cons]
    have hv1 : score init ≤ score (if score init < score c then c else init) := by
      split
      · exact Nat.le_of_lt (by assumption)
      · exact Nat.le_refl _
    have hv2 : score c ≤ score (if score init < score c then c else init) := by
      split
      · exact Nat.le_refl _
      · exact Nat.le_of_not_lt (by assumption)
    obtain ⟨ha, hb⟩ := ih (if score init < score c then c else init)
    refine ⟨Nat.le_trans hv1 ha, ?_⟩
    intro x hx
    rcases List.mem_cons.mp hx with rfl | hx'
    · exact Nat.le_trans hv2 ha
    · exact hb x hx'

/-- The selected candidate scores at least as high as every candidate. -/
theorem pyMaxByScore_ge {l : List (List Char)} :
    ∀ x ∈ l, score x ≤ score (pyMaxByScore l) := by
  intro x hx
  cases l with
  | nil => simp at hx
  | cons c cs =>
    rw [pyMaxByScore]
    obtain ⟨ha, hb⟩ := foldl_maxScore_ge cs c
    rcases List.mem_cons.mp hx with rfl | hx'
    · exact ha
    · exact hb x hx'

/-- With at least four word tokens, the candidate list is exactly the
4-, 3- and 2-token tails, in that order. -/
theorem candidateList_of_ge4 {ws : List (List Char)} (h4 : 4 ≤ ws.length) :
    candidateList ws =
      [joinSep [' '] (lastN 4 ws), joinSep [' '] (lastN 3 ws), joinSep [' '] (lastN 2 ws)] := by
  have h3 : 3 ≤ ws.length := by omega
  have h2 : 2 ≤ ws.length := by omega
  simp only [candidateList]
  rw [if_pos h4, if_pos h3, if_pos h2]
  simp

/-- On a three-element candidate list whose head scores at least as high
as the others, the stable maximum selects the head. -/
theorem pyMaxByScore_head_of_ge {c4 c3 c2 : List Char}
    (h3 : score c3 ≤ score c4) (h2 : score c2 ≤ score c4) :
    pyMaxByScore [c4, c3, c2] = c4 := by
  rw [pyMaxByScore, List.foldl_cons, List.foldl_cons, List.foldl_nil]
  rw [if_neg (Nat.not_lt.mpr h3), if_neg (Nat.not_lt.mpr h2)]

/-!
### Claim theorems
-/

/-- C1 (counterexample): the input `"Big Foo Bar (FB)"` contains the
substring `"Foo Bar (FB)"`, yet the recorded expansion for key `FB` is
`"Big Foo Bar"`, not `"Foo Bar"` - the non-greedy phrase group extends
left through the preceding word, so the claimed output line `"FB: Foo
Bar"` does not appear. -/
theorem claim_C1_cex :
    extract_abbreviations_simple "Big Foo Bar (FB)".toList = "FB: Big Foo Bar".toList ∧
    lookupA "FB".toList (abbrDict "Big Foo Bar (FB)".toList) = some ("Big Foo Bar".toList) ∧
    "Big Foo Bar".toList ≠ "Foo Bar".toList :=
  ⟨rfl, rfl, by decide⟩

/-- C1 (amended): for every input text that begins with `"Foo Bar (FB)"`,
whatever follows, the recorded expansion for key `FB` is `"Foo Bar"` and
the output contains the line `"FB: Foo Bar"` (text preceding the
occurrence can extend the captured phrase and change the result, as the
counterexample shows). -/
theorem claim_C1 (post : List Char) :
    lookupA "FB".toList (abbrDict ("Foo Bar (FB)".toList ++ post)) =
        some ("Foo Bar".toList) ∧
      renderLine ("FB".toList, "Foo Bar".toList) ∈
        outLines ("Foo Bar (FB)".toList ++ post) := by
  have hm : matchAt ("Foo Bar (FB)".toList ++ post) =
      some ("Foo Bar".toList, "FB".toList, post) := rfl
  have hd : abbrDict ("Foo Bar (FB)".toList ++ post) =
      (findallAbbr post).foldl stepMatch [("FB".toList, "Foo Bar".toList)] := by
    unfold abbrDict
    rw [findallAbbr_some hm, List.foldl_cons]
    rfl
  have hlook : lookupA "FB".toList (abbrDict ("Foo Bar (FB)".toList ++ post)) =
      some ("Foo Bar".toList) := by
    rw [hd]
    exact foldl_stepMatch_preserve _ _ rfl
  refine ⟨hlook, ?_⟩
  have hmem : ("FB".toList, "Foo Bar".toList) ∈ outPairs ("Foo Bar (FB)".toList ++ post) :=
    ((sortPairs_perm _).mem_iff).mpr (lookupA_some_mem hlook)
  exact List.mem_map_of_mem renderLine hmem

/-- C2: candidates are scored by the count of space-separated words whose
first character is uppercase; the stable maximum selects the candidate
with the highest score, ties resolving to the earliest-generated
candidate, so whenever the 4-word candidate scores at least as high as the
3- and 2-word candidates it is chosen; on `"Alpha Beta Gamma Delta
(ABGD)"` the 4-word candidate wins. -/
theorem claim_C2 (ws : List (List Char)) (h4 : 4 ≤ ws.length)
    (h3 : score (joinSep [' '] (lastN 3 ws)) ≤ score (joinSep [' '] (lastN 4 ws)))
    (h2 : score (joinSep [' '] (lastN 2 ws)) ≤ score (joinSep [' '] (lastN 4 ws))) :
    pyMaxByScore (candidateList ws) = joinSep [' '] (lastN 4 ws) ∧
    (∀ c ∈ candidateList ws, score c ≤ score (pyMaxByScore (candidateList ws))) ∧
    extract_abbreviations_simple "Alpha Beta Gamma Delta (ABGD)".toList =
      "ABGD: Alpha Beta Gamma Delta".toList := by
  refine ⟨?_, pyMaxByScore_ge, rfl⟩
  rw [candidateList_of_ge4 h4]
  exact pyMaxByScore_head_of_ge h3 h2

/-- C2 (witness): instantiated at the four words of the specification's
example. -/
theorem claim_C2_witness :
    pyMaxByScore (candidateList
        ["Alpha".toList, "Beta".toList, "Gamma".toList, "Delta".toList]) =
      joinSep [' '] (lastN 4
        ["Alpha".toList, "Beta".toList, "Gamma".toList, "Delta".toList]) :=
  (claim_C2 ["Alpha".toList, "Beta".toList, "Gamma".toList, "Delta".toList]
    (by decide) (by decide) (by decide)).1

/-- C3: every abbreviation key appears at most once in the index; a
recorded entry survives any further matches unchanged (first occurrence
wins); on `"Foo Bar (FB) and Baz Qux (FB)"` the recorded expansion for
`FB` is the first one, `"Foo Bar"`. -/
theorem claim_C3 (text : List Char) (ms2 : List (List Char × List Char))
    (k v : List Char) (h : lookupA k (abbrDict text) = some v) :
    lookupA k ((findallAbbr text ++ ms2).foldl stepMatch []) = some v ∧
    (∀ t : List Char, ((abbrDict t).map Prod.fst).Nodup) ∧
    lookupA "FB".toList (abbrDict "Foo Bar (FB) and Baz Qux (FB)".toList) =
      some ("Foo Bar".toList) := by
  refine ⟨?_, abbrDict_keys_nodup, rfl⟩
  rw [List.foldl_append]
  exact foldl_stepMatch_preserve ms2 _ h

/-- C3 (witness): the entry recorded from `"Foo Bar (FB)"` survives a
later match with the same key. -/
theorem claim_C3_witness :
    lookupA "FB".toList
        ((findallAbbr "Foo Bar (FB)".toList ++
          [("Baz Qux".toList, "FB".toList)]).foldl stepMatch []) =
      some ("Foo Bar".toList) :=
  (claim_C3 "Foo Bar (FB)".toList [("Baz Qux".toList, "FB".toList)]
    "FB".toList "Foo Bar".toList rfl).1

/-- C4: whenever an overridden key is matched at least once (with a
tokenizable phrase), the recorded expansion is exactly the override
table's fixed value, regardless of the matched text or order; on
`"National Sci Found China (NSFC)"` the override wins. -/
theorem claim_C4 (ms : List (List Char × List Char)) (k v full : List Char)
    (hov : lookupA k ABBR_OVERRIDES = some v)
    (hmem : (full, k) ∈ ms)
    (hs : pyStrip k = k) (hu : pyIsupper k = true) (hw : wordsOf full ≠ []) :
    lookupA k (ms.foldl stepMatch []) = some v ∧
    abbrDict "National Sci Found China (NSFC)".toList =
      [("NSFC".toList, "National Natural Science Foundation of China".toList)] := by
  refine ⟨?_, rfl⟩
  exact foldl_stepMatch_override hov hs hu hw ms [] hmem
    (fun w hw' => by simp [lookupA] at hw')

/-- C4 (witness): instantiated at the NSFC match with a different
preceding phrase. -/
theorem claim_C4_witness :
    lookupA "NSFC".toList
        ([("National Sci Found China".toList, "NSFC".toList)].foldl stepMatch []) =
      some ("National Natural Science Foundation of China".toList) :=
  (claim_C4 [("National Sci Found China".toList, "NSFC".toList)] "NSFC".toList
    "National Natural Science Foundation of China".toList
    "National Sci Found China".toList rfl (List.mem_singleton.mpr rfl)
    rfl rfl (by decide)).1

/-- C5: for every input, the output pairs are strictly increasing in the
abbreviation key (ascending lexicographic order, independent of discovery
order); an input with `(ZZ)` before `(AA)` renders the `AA` line first. -/
theorem claim_C5 (text : List Char) :
    List.Pairwise (fun p q : List Char × List Char => strLtB p.1 q.1 = true)
        (outPairs text) ∧
      extract_abbreviations_simple "Zig Zag (ZZ). After All (AA).".toList =
        "AA: After All\nZZ: Zig Zag".toList :=
  ⟨outPairs_strict text, rfl⟩

/-- C6: an input containing no parenthesized all-uppercase token of 2-8
letters yields exactly the fixed message, and more generally so does any
input on which zero abbreviations are recorded. -/
theorem claim_C6 (text : List Char) (h : hasParenToken text = false) :
    extract_abbreviations_simple text = noAbbrMsg ∧
    (∀ t : List Char, abbrDict t = [] → extract_abbreviations_simple t = noAbbrMsg) := by
  constructor
  · have hf : findallAbbr text = [] := by
      by_contra hne
      rw [findallFuel_ne_nil hne] at h
      exact absurd h (by simp)
    simp only [extract_abbreviations_simple]
    rw [if_pos hf]
  · intro t ht
    by_cases hf : findallAbbr t = []
    · simp only [extract_abbreviations_simple]
      rw [if_pos hf]
    · have hlines : outLines t = [] := by
        unfold outLines outPairs sortPairs
        rw [ht]
        rfl
      simp only [extract_abbreviations_simple]
      rw [if_neg hf, hlines, if_pos rfl]

/-- C6 (witness): `"hello world"` has no parenthesized token and yields
the fixed message. -/
theorem claim_C6_witness :
    extract_abbreviations_simple "hello world".toList = noAbbrMsg :=
  (claim_C6 "hello world".toList (by decide)).1

/-- C7 (counterexample): on `"a- b- c"` the substitution rejoins only the
leftmost occurrence and the scan resumes after it, so the output
`"ab- c"` still contains a word token ending in a hyphen followed by
whitespace and another word token - not every such occurrence is
rejoined. -/
theorem claim_C7_cex :
    pyReSubHyphen "a- b- c".toList = "ab- c".toList ∧
    hasSplitArtifact (pyReSubHyphen "a- b- c".toList) = true :=
  ⟨rfl, rfl⟩

/-- C7 (amended): each leftmost non-overlapping occurrence of a word run,
hyphen, whitespace run, word run is rejoined with the hyphen and
whitespace removed (here stated for a text consisting of exactly one such
occurrence, quantified over the runs); occurrences overlapping an earlier
match can be left unjoined. -/
theorem claim_C7 (w1 ws w2 : List Char)
    (h1 : w1 ≠ []) (hw1 : ∀ c ∈ w1, isWordCh c = true)
    (h2 : ws ≠ []) (hws : ∀ c ∈ ws, isSpaceCh c = true)
    (h3 : w2 ≠ []) (hw2 : ∀ c ∈ w2, isWordCh c = true) :
    pyReSubHyphen (w1 ++ '-' :: (ws ++ w2)) = w1 ++ w2 ∧
    pyReSubHyphen "Mon-\n itor".toList = "Monitor".toList :=
  ⟨pyReSubHyphen_exact h1 hw1 h2 hws h3 hw2, rfl⟩

/-- C7 (witness): the specification's example `"Mon-\n itor"` normalizes
to `"Monitor"`. -/
theorem claim_C7_witness :
    pyReSubHyphen ("Mon".toList ++ '-' :: ("\n ".toList ++ "itor".toList)) =
      "Mon".toList ++ "itor".toList :=
  (claim_C7 "Mon".toList "\n ".toList "itor".toList (by decide) (by decide)
    (by decide) (by decide) (by decide) (by decide)).1

/-- C8 (counterexample): in appQ1 the model call is not wrapped in any
exception handler, so a gateway failure propagates out of the Send
handler (the handler's result is the raised error, not a history with an
embedded error message). -/
theorem claim_C8_cex :
    sendQ1 [] "hi".toList none none (fun _ => Except.error "boom".toList) =
      Except.error "boom".toList :=
  rfl

/-- C8 (amended): in appQ4 every failure of the model call is caught at
the call boundary and converted into a user-visible error reply appended
to the conversation log, so no exception escapes that handler; appQ1's
handler has no such boundary and propagates the exception. -/
theorem claim_C8 (hist : List Msg) (apiKey question : List Char)
    (up : Option UploadedFile) (fileText : Option (List Char)) (e : List Char)
    (h1 : pyStrip apiKey ≠ []) (h2 : pyStrip question ≠ []) :
    sendQ4 hist apiKey question up fileText (fun _ => Except.error e) =
      hist ++ [⟨"user".toList, displayMessageQ4 question up fileText⟩,
               ⟨"assistant".toList, errPrefixQ4 ++ e⟩] := by
  simp only [sendQ4]
  rw [if_neg h1, if_neg h2]
  simp

/-- C8 (witness): a failing gateway call in appQ4 produces exactly the
two appended entries with the error reply. -/
theorem claim_C8_witness :
    sendQ4 [] "k".toList "q".toList none none (fun _ => Except.error "boom".toList) =
      [] ++ [⟨"user".toList, displayMessageQ4 "q".toList none none⟩,
             ⟨"assistant".toList, errPrefixQ4 ++ "boom".toList⟩] :=
  claim_C8 [] "k".toList "q".toList none none "boom".toList (by decide) (by decide)

/-- C9 (counterexample): appQ2's extractor returns the empty string for an
unsupported suffix - identical to the result for a supported but empty
file, and not the distinct unsupported sentinel the claim requires. -/
theorem claim_C9_cex :
    extract_text_Q2 ⟨"data.xyz".toList, "hello".toList, "hello".toList,
        "hello".toList, "hello".toList⟩ = [] ∧
    extract_text_Q2 ⟨"data.xyz".toList, "hello".toList, "hello".toList,
        "hello".toList, "hello".toList⟩ ≠ unsupportedSentinel ∧
    extract_text_Q2 ⟨"empty.txt".toList, [], [], [], []⟩ = [] :=
  ⟨rfl, by decide, rfl⟩

/-- C9 (amended): for every uploaded file with an unrecognized suffix, the
appQ1 and appQ4 extractors return the sentinel `"<<Unsupported file
type>>"`, while the appQ2 extractor returns the empty string (its caller
treats empty text as nothing to process). -/
theorem claim_C9 (f : UploadedFile) (h : fileKind f.name = FileKind.other) :
    extract_text_Q1 f = unsupportedSentinel ∧
    extract_text_Q4 f = unsupportedSentinel ∧
    extract_text_Q2 f = [] := by
  unfold extract_text_Q1 extract_text_Q4 extract_text_Q2
  rw [h]
  exact ⟨rfl, rfl, rfl⟩

/-- C9 (witness): instantiated at a `.dat` file. -/
theorem claim_C9_witness :
    extract_text_Q1 ⟨"report.dat".toList, "x".toList, "x".toList, "x".toList,
        "x".toList⟩ = unsupportedSentinel ∧
    extract_text_Q4 ⟨"report.dat".toList, "x".toList, "x".toList, "x".toList,
        "x".toList⟩ = unsupportedSentinel ∧
    extract_text_Q2 ⟨"report.dat".toList, "x".toList, "x".toList, "x".toList,
        "x".toList⟩ = [] :=
  claim_C9 ⟨"report.dat".toList, "x".toList, "x".toList, "x".toList, "x".toList⟩ rfl

/-- C10: appQ2's Send handler appends nothing when no file is uploaded or
the extracted text is empty, and otherwise appends exactly the user entry
followed by the assistant entry carrying the abbreviation index; the
previous history is preserved as a prefix in both cases. -/
theorem claim_C10 (hist : List Msg) (t : List Char) (h : t ≠ []) :
    sendQ2 hist none = hist ∧
    sendQ2 hist (some []) = hist ∧
    sendQ2 hist (some t) =
      hist ++ [⟨"user".toList, docAttachedMsg⟩,
               ⟨"assistant".toList, extract_abbreviations_simple t⟩] := by
  refine ⟨rfl, rfl, ?_⟩
  simp only [sendQ2]
  rw [if_neg h]

/-- C10 (witness): one press with nonempty extracted text appends exactly
the two entries. -/
theorem claim_C10_witness :
    sendQ2 [] (some "x".toList) =
      [] ++ [⟨"user".toList, docAttachedMsg⟩,
             ⟨"assistant".toList, extract_abbreviations_simple "x".toList⟩] :=
  (claim_C10 [] "x".toList (by decide)).2.2
